import Mathlib

/-!
Verification of the change-detection and today-scoped commit engine of
`svn_today_commit.py` (repository snmoosavi/svn-auto-commit).

Shallow embedding conventions:
* A filesystem path is a normalized absolute path given as its list of
  components (`FsPath`).  Python's `os.path.abspath` is the identity on such
  paths, and `os.path.commonpath` is the longest common component prefix.
* Clock values (`datetime.now()`, `time.time()`, `st_mtime`) are modelled as
  integer milliseconds on one local clock; the source compares
  `(time.time() - last_change_ts) * 1000` against `debounce_ms`, which in the
  millisecond model is `now - last_change_ts >= debounce_ms`.
* Python dicts are insertion-ordered association lists; `d[k] = v` keeps the
  position of an existing key and appends a new one, `d.pop(k, None)` removes
  the entry, `list(d.keys())` is the insertion order.
* The live filesystem seen by one loop tick is a finite map from file path to
  its stat fingerprint; a file absent from the map is a file whose `os.stat`
  / `os.path.isfile` / `os.path.getmtime` fails.  The directory walk of
  `os.walk` is modelled as the list of visited directories together with the
  names of their direct child directories.
* External process invocations (`run_cmd`) are modelled by the command issued
  and an environment function giving each command's exit status; the commit
  message, identical across batches, is folded into that function.
-/

namespace SvnAuto

/-- An absolute filesystem path as its list of components. -/
abbrev FsPath := List String

/-- The `(st_mtime, st_size)` fingerprint stored by `snapshot_tree`. -/
structure FileInfo where
  mtime : Int
  size : Nat
deriving DecidableEq, Repr

/-- A change kind recorded in the ledger: `'A'`, `'M'` or `'D'`. -/
inductive Kind where
  | A
  | M
  | D
deriving DecidableEq, Repr

/-- Python dict lookup `d.get(k)` on an insertion-ordered association list. -/
def dictGet [DecidableEq α] : List (α × β) → α → Option β
  | [], _ => none
  | (a, b) :: t, k => if k = a then some b else dictGet t k

/-- Python dict assignment `d[k] = v`: overwrite in place or append. -/
def dictSet [DecidableEq α] : List (α × β) → α → β → List (α × β)
  | [], k, v => [(k, v)]
  | (a, b) :: t, k, v => if k = a then (a, v) :: t else (a, b) :: dictSet t k v

/-- Python dict removal `d.pop(k, None)`. -/
def dictPop [DecidableEq α] : List (α × β) → α → List (α × β)
  | [], _ => []
  | (a, b) :: t, k => if k = a then t else (a, b) :: dictPop t k

/-- The Today Ledger `changed_today`: working-copy root to inner path map. -/
abbrev Ledger := List (FsPath × List (FsPath × Kind))

/-- `changed_today[wc][p]`, the recorded kind of one (working copy, path). -/
def ledgerEntry (led : Ledger) (wc p : FsPath) : Option Kind :=
  (dictGet led wc).bind (fun inner => dictGet inner p)

/-- One day in milliseconds (`timedelta(days=1)`). -/
def dayMs : Int := 86400000

/-- `start_of_today()`: midnight of the current local day, from the clock
reading `now` (the `datetime(now.year, now.month, now.day, 0, 0, 0)` of the
source, in millisecond time). -/
def start_of_today (now : Int) : Int :=
  now - now % dayMs

/-- Python `str.lower()`, written on the character list so that it is
kernel-reducible (the relevant characters are ASCII). -/
def lowerStr (s : String) : String :=
  String.mk (s.data.map Char.toLower)

/-- Python `str.endswith(suffix)`, written on the character list. -/
def endsWithStr (s suff : String) : Bool :=
  suff.data.isSuffixOf s.data

/-- `is_ignored`: basename is `.svn` or carries a transient suffix
(case-insensitive, the source lowercases the basename first). -/
def is_ignored (p : FsPath) : Bool :=
  let name := lowerStr (p.getLast?.getD "")
  name == ".svn" ||
    [".tmp", ".swp", ".swo", ".pyc", ".pyo", "~"].any (fun s => endsWithStr name s)

/-- `snapshot_tree`: the `{filepath: (mtime, size)}` map of the live
filesystem, pruning directories named `.svn` (case-insensitive) and skipping
ignored files.  Files whose `os.stat` fails are already absent from `fs`. -/
def snapshot_tree (fs : List (FsPath × FileInfo)) : List (FsPath × FileInfo) :=
  fs.filter (fun e =>
    !(e.1.dropLast.any (fun d => lowerStr d == ".svn")) && !(is_ignored e.1))

/-- `diff_states`: key sets added, removed, and common-but-changed. -/
def diff_states (old new : List (FsPath × FileInfo)) :
    List FsPath × List FsPath × List FsPath :=
  let old_keys := old.map Prod.fst
  let new_keys := new.map Prod.fst
  (new_keys.filter (fun k => k ∉ old_keys),
   old_keys.filter (fun k => k ∉ new_keys),
   (new_keys.filter (fun k => k ∈ old_keys)).filter
     (fun k => dictGet old k ≠ dictGet new k))

/-- `is_under(path, parent)`: `os.path.commonpath([path, parent]) == parent`,
i.e. the components of `parent` are a prefix of those of `path`.  Both paths
are absolute, so the `ValueError` branch of the source cannot fire. -/
def is_under (path parent : FsPath) : Bool :=
  List.isPrefixOf parent path

/-- The path string joined by the (length-one) separator, whose length is the
Python `len(p)` of the path string. -/
def joinPath (p : FsPath) : String :=
  String.intercalate "/" p

/-- Python `len(p)` of the path string. -/
def pathStrLen (p : FsPath) : Nat :=
  (joinPath p).length

/-- The sort relation of `sorted(set(wc_roots), key=lambda p: (len(p), p.lower()))`:
compare path-string lengths, then the lowercased path strings. -/
def rootLe (p q : FsPath) : Prop :=
  pathStrLen p < pathStrLen q ∨
    (pathStrLen p = pathStrLen q ∧
      (lowerStr (joinPath p)).data ≤ (lowerStr (joinPath q)).data)

instance : DecidableRel rootLe := fun _ _ =>
  inferInstanceAs (Decidable (_ ∨ _))

instance : IsTotal FsPath rootLe where
  total p q := by
    rcases Nat.lt_trichotomy (pathStrLen p) (pathStrLen q) with h | h | h
    · exact Or.inl (Or.inl h)
    · rcases le_total ((lowerStr (joinPath p)).data) ((lowerStr (joinPath q)).data) with h2 | h2
      · exact Or.inl (Or.inr ⟨h, h2⟩)
      · exact Or.inr (Or.inr ⟨h.symm, h2⟩)
    · exact Or.inr (Or.inl h)

instance : IsTrans FsPath rootLe where
  trans p q r hpq hqr := by
    rcases hpq with h1 | ⟨e1, s1⟩
    · rcases hqr with h2 | ⟨e2, _⟩
      · exact Or.inl (h1.trans h2)
      · exact Or.inl (e2 ▸ h1)
    · rcases hqr with h2 | ⟨e2, s2⟩
      · exact Or.inl (e1 ▸ h2)
      · exact Or.inr ⟨e1.trans e2, s1.trans s2⟩

/-- `find_working_copy_roots`: every walked directory having a direct child
directory named `.svn` (case-insensitive), deduplicated and sorted by
`(len(p), p.lower())`.  The walk is given as the visited directories with
their child-directory names. -/
def find_working_copy_roots (walk : List (FsPath × List String)) : List FsPath :=
  let wc_roots :=
    (walk.filter (fun e => e.2.any (fun d => lowerStr d == ".svn"))).map Prod.fst
  List.insertionSort rootLe wc_roots.dedup

/-- One step of the best-candidate scan of `nearest_wc_root`. -/
def nearestStep (path : FsPath) (acc : Option FsPath × Int) (wc : FsPath) :
    Option FsPath × Int :=
  if is_under path wc = true ∧ acc.2 < (pathStrLen wc : Int) then
    (some wc, (pathStrLen wc : Int))
  else acc

/-- `nearest_wc_root`: the discovered root under which `path` lies whose path
string is longest, scanning `wc_roots` with `best_len` starting at `-1`. -/
def nearest_wc_root (wc_roots : List FsPath) (path : FsPath) : Option FsPath :=
  (wc_roots.foldl (nearestStep path) (none, -1)).1

/-- `changed_today.setdefault(wc, {})[fp] = kind`. -/
def ledgerRecord (led : Ledger) (wc p : FsPath) (k : Kind) : Ledger :=
  match dictGet led wc with
  | some inner => dictSet led wc (dictSet inner p k)
  | none => led ++ [(wc, [(p, k)])]

/-- The body of the `added` / `modified` loops of `record_today_changes`:
skip ignored paths and paths without an owning root, then record the kind
when the file's mtime is on/after `today_zero` (a failing `getmtime`, i.e. a
path absent from `fs`, is skipped). -/
def recordMtimeStep (fs : List (FsPath × FileInfo)) (wc_roots : List FsPath)
    (today_zero : Int) (k : Kind) (led : Ledger) (fp : FsPath) : Ledger :=
  if is_ignored fp then led
  else
    match nearest_wc_root wc_roots fp with
    | none => led
    | some wc =>
      match dictGet fs fp with
      | none => led
      | some info => if today_zero ≤ info.mtime then ledgerRecord led wc fp k else led

/-- The body of the `removed` loop of `record_today_changes`: deletions are
recorded with the detection time `now`. -/
def recordRemovedStep (wc_roots : List FsPath) (today_zero now : Int)
    (led : Ledger) (fp : FsPath) : Ledger :=
  if is_ignored fp then led
  else
    match nearest_wc_root wc_roots fp with
    | none => led
    | some wc => if today_zero ≤ now then ledgerRecord led wc fp Kind.D else led

/-- `record_today_changes(added, removed, modified)`. -/
def record_today_changes (fs : List (FsPath × FileInfo)) (wc_roots : List FsPath)
    (today_zero now : Int) (led : Ledger)
    (added removed modified : List FsPath) : Ledger :=
  let led1 := added.foldl (recordMtimeStep fs wc_roots today_zero Kind.A) led
  let led2 := modified.foldl (recordMtimeStep fs wc_roots today_zero Kind.M) led1
  removed.foldl (recordRemovedStep wc_roots today_zero now) led2

/-- `os.path.isfile(p)` against the modelled filesystem. -/
def isfile (fs : List (FsPath × FileInfo)) (p : FsPath) : Bool :=
  (dictGet fs p).isSome

/-- The re-validation body of `perform_commit_today_only` for one ledger
entry: drop entries not under the working copy, turn `'A'`/`'M'` entries of
vanished files into `'D'`, keep `'A'`/`'M'` only when the mtime is still
on/after today's start, and keep `'D'` entries. -/
def cleanStep (fs : List (FsPath × FileInfo)) (today_zero : Int) (wc : FsPath)
    (clean : List (FsPath × Kind)) (e : FsPath × Kind) : List (FsPath × Kind) :=
  if is_under e.1 wc = true then
    if e.2 = Kind.A ∨ e.2 = Kind.M then
      match dictGet fs e.1 with
      | none => dictSet clean e.1 Kind.D
      | some info =>
        if today_zero ≤ info.mtime then dictSet clean e.1 e.2 else clean
    else if e.2 = Kind.D then dictSet clean e.1 Kind.D
    else clean
  else clean

/-- The re-validated (`clean`) copy of one working copy's ledger entries. -/
def clean_items (fs : List (FsPath × FileInfo)) (today_zero : Int) (wc : FsPath)
    (items : List (FsPath × Kind)) : List (FsPath × Kind) :=
  items.foldl (cleanStep fs today_zero wc) []

/-- `chunk(seq, n)` with explicit fuel so that the recursion is structural;
`chunk` below supplies `seq.length` as fuel, which never runs out for the
positive chunk sizes (50/80/100) the source uses. -/
def chunkFuel : Nat → List α → Nat → List (List α)
  | _, [], _ => []
  | 0, _ :: _, _ => []
  | fuel + 1, x :: xs, n => (x :: xs).take n :: chunkFuel fuel ((x :: xs).drop n) n

/-- `chunk(seq, n) = [seq[i:i+n] for i in range(0, len(seq), n)]`. -/
def chunk (seq : List α) (n : Nat) : List (List α) :=
  chunkFuel seq.length seq n

/-- One external SVN invocation, by verb and path list. -/
inductive SvnCmd where
  | update (root : FsPath)
  | add (paths : List FsPath)
  | rm (paths : List FsPath)
  | commit (paths : List FsPath)
deriving DecidableEq, Repr

/-- Whether an invocation is a commit invocation. -/
def isCommit : SvnCmd → Bool
  | SvnCmd.commit _ => true
  | _ => false

/-- The commit invocations of a trace. -/
def commitsOf (tr : List SvnCmd) : List SvnCmd :=
  tr.filter isCommit

/-- `changed_today.get(wc_root, {}).pop(p, None)` for every `p` in `ps`:
popping on the fresh `{}` of a missing key changes nothing. -/
def ledgerPopPaths (led : Ledger) (wc : FsPath) (ps : List FsPath) : Ledger :=
  match dictGet led wc with
  | some inner => dictSet led wc (ps.foldl dictPop inner)
  | none => led

/-- One commit batch of `commit_with_svn_today_only`: run the invocation,
and on exit 0 pop exactly that batch's paths from the ledger. -/
def commitChunkStep (run : SvnCmd → Int) (wc_root : FsPath)
    (acc : List SvnCmd × Ledger) (ch : List FsPath) : List SvnCmd × Ledger :=
  if run (SvnCmd.commit ch) = 0 then
    (acc.1 ++ [SvnCmd.commit ch], ledgerPopPaths acc.2 wc_root ch)
  else
    (acc.1 ++ [SvnCmd.commit ch], acc.2)

/-- `commit_with_svn_today_only`: stage adds and deletes in chunks of 50,
then commit the full target list in chunks of 80, popping each successful
chunk's paths from the ledger.  Returns the invocation trace and the updated
ledger; `run` gives each invocation's exit status. -/
def commit_with_svn_today_only (run : SvnCmd → Int) (fs : List (FsPath × FileInfo))
    (wc_root : FsPath) (items : List (FsPath × Kind)) (led : Ledger) :
    List SvnCmd × Ledger :=
  let add_list := (items.filter (fun e => e.2 = Kind.A ∧ isfile fs e.1)).map Prod.fst
  let del_list := (items.filter (fun e => e.2 = Kind.D)).map Prod.fst
  let staged := (chunk add_list 50).map SvnCmd.add ++ (chunk del_list 50).map SvnCmd.rm
  let commit_targets := items.map Prod.fst
  if commit_targets.isEmpty then (staged, led)
  else
    (chunk commit_targets 80).foldl (commitChunkStep run wc_root) (staged, led)

/-- The collaborators of one loop tick: the live filesystem, the directory
walk, and the exit status of each external invocation. -/
structure Env where
  fs : List (FsPath × FileInfo)
  walk : List (FsPath × List String)
  run : SvnCmd → Int

/-- The engine state of `MainWindow` relevant to the core (svn-CLI backend
configured; `has_root` is whether `root_folder` is set). -/
structure Engine where
  has_root : Bool
  auto_update : Bool
  today_zero : Int
  wc_roots : List FsPath
  changed_today : Ledger
  prev_state : List (FsPath × FileInfo)
  last_change_ts : Int
  pending_commit : Bool
  debounce_ms : Int

/-- `reset_today`: re-stamp `today_zero` and clear every inner map. -/
def reset_today (now : Int) (st : Engine) : Engine :=
  { st with
    today_zero := start_of_today now
    changed_today := st.wc_roots.map (fun wc => (wc, [])) }

/-- `refresh_wc_roots`: rediscover roots and re-create the empty ledger. -/
def refresh_wc_roots (walk : List (FsPath × List String)) (st : Engine) : Engine :=
  let roots := find_working_copy_roots walk
  { st with wc_roots := roots, changed_today := roots.map (fun wc => (wc, [])) }

/-- `validate_paths`: the executable paths are configured in this model; the
root discovery is refreshed when no roots are known yet. -/
def validate_paths (walk : List (FsPath × List String)) (st : Engine) : Engine :=
  if st.wc_roots.isEmpty then refresh_wc_roots walk st else st

/-- `do_update` (svn-CLI branch): one `svn update` per root, then re-adopt a
fresh snapshot as the baseline.  With no roots it returns before updating. -/
def do_update (env : Env) (st : Engine) : Engine × List SvnCmd :=
  let st := validate_paths env.walk st
  if st.wc_roots.isEmpty then (st, [])
  else
    ({ st with prev_state := snapshot_tree env.fs },
     st.wc_roots.map SvnCmd.update)

/-- The per-working-copy body of the commit loop of
`perform_commit_today_only`: commit one working copy's item list against the
current ledger, accumulating the invocation trace. -/
def wcCommitStep (env : Env) (acc : Engine × List SvnCmd)
    (e : FsPath × List (FsPath × Kind)) : Engine × List SvnCmd :=
  let r := commit_with_svn_today_only env.run env.fs e.1 e.2 acc.1.changed_today
  ({ acc.1 with changed_today := r.2 }, acc.2 ++ r.1)

/-- `perform_commit_today_only` (svn-CLI branch): validate, build the
re-validated per-working-copy item lists, optionally update first, then run
the chunked commit for every working copy with items, in root order. -/
def perform_commit_today_only (env : Env) (st : Engine) : Engine × List SvnCmd :=
  let st := validate_paths env.walk st
  if st.wc_roots.isEmpty then (st, [])
  else
    let per_wc := st.wc_roots.filterMap (fun wc =>
      let clean := clean_items env.fs st.today_zero wc ((dictGet st.changed_today wc).getD [])
      if clean.isEmpty then none else some (wc, clean))
    if per_wc.isEmpty then (st, [])
    else
      let first := if st.auto_update then do_update env st else (st, [])
      per_wc.foldl (wcCommitStep env) first

/-- The part of `on_tick` after the midnight-rollover check: snapshot and
diff, record and re-arm the debounce on any change, and fire the commit
orchestrator when the debounce window has elapsed. -/
def on_tick_body (env : Env) (now : Int) (st : Engine) : Engine × List SvnCmd :=
  if st.has_root = false then (st, [])
  else
    let new_state := snapshot_tree env.fs
    let d := diff_states st.prev_state new_state
    let st :=
      if d.1 = [] ∧ d.2.1 = [] ∧ d.2.2 = [] then st
      else
        { st with
          prev_state := new_state
          changed_today :=
            record_today_changes env.fs st.wc_roots st.today_zero now
              st.changed_today d.1 d.2.1 d.2.2
          last_change_ts := now
          pending_commit := true }
    if st.pending_commit = true ∧ st.debounce_ms ≤ now - st.last_change_ts then
      perform_commit_today_only env { st with pending_commit := false }
    else (st, [])

/-- `on_tick`: roll the day over at the first tick on/after
`today_zero + 1 day`, then run the body.  Returns the new state and the
trace of external invocations issued during the tick. -/
def on_tick (env : Env) (now : Int) (st : Engine) : Engine × List SvnCmd :=
  on_tick_body env now (if st.today_zero + dayMs ≤ now then reset_today now st else st)

/-- The outcome of `subprocess.run` as seen by `run_cmd`: a completed
process, a `FileNotFoundError`, or any other spawn/timeout/executor
exception, the latter two carrying their `str(e)` text. -/
inductive SpawnResult where
  | ok (code : Int) (out err : String)
  | notFound (msg : String)
  | failed (msg : String)
deriving DecidableEq, Repr

/-- `run_cmd`: always a `(returncode, stdout, stderr)` triple; a missing
executable becomes exit 127 and any other exception exit 128, with empty
stdout and the exception text as stderr.  (Named `runCmd` because the
source's name is a reserved command token in Lean.) -/
def runCmd (r : SpawnResult) : Int × String × String :=
  match r with
  | SpawnResult.ok code out err => (code, out.trim, err.trim)
  | SpawnResult.notFound msg => (127, "", msg)
  | SpawnResult.failed msg => (128, "", msg)

/-- The ledger invariant: every inner key lies under its working-copy root. -/
def ledgerInvB (led : Ledger) : Bool :=
  led.all (fun e => e.2.all (fun pe => is_under pe.1 e.1))

/-- The ledger invariant as a proposition. -/
def LedgerInv (led : Ledger) : Prop :=
  ∀ e ∈ led, ∀ pe ∈ e.2, is_under pe.1 e.1 = true

/-- The ordering the specification sentence asserts for the discovered
roots, rendered from its words: path length ascending, and among equal
lengths the plain (case-sensitive) lexicographic order of the path
strings. -/
def specRootLe (p q : FsPath) : Prop :=
  pathStrLen p < pathStrLen q ∨
    (pathStrLen p = pathStrLen q ∧ (joinPath p).data ≤ (joinPath q).data)

instance : DecidableRel specRootLe := fun _ _ =>
  inferInstanceAs (Decidable (_ ∨ _))

/-- Fixture: a working copy's ledger holding 120 today-entries. -/
def mW : List (FsPath × Kind) :=
  (List.range 120).map (fun i => ([toString i], Kind.M))

/-- Fixture: the Today Ledger holding `mW` under root `wc`. -/
def ledW : Ledger := [(["wc"], mW)]

/-- Fixture: a backend whose commit succeeds exactly on 80-path batches. -/
def runW : SvnCmd → Int
  | SvnCmd.commit ps => if ps.length = 80 then 0 else 1
  | _ => 0

/-- Fixture: an empty filesystem. -/
def fsW : List (FsPath × FileInfo) := []

/-- Fixture: an environment with nothing on disk and an always-0 backend. -/
def envQuiet : Env := { fs := [], walk := [], run := fun _ => 0 }

/-- Fixture: an engine holding one yesterday entry, about to roll over. -/
def stRoll : Engine :=
  { has_root := true, auto_update := false, today_zero := 0
    wc_roots := [["w"]], changed_today := [(["w"], [(["w", "a"], Kind.A)])]
    prev_state := [], last_change_ts := 0, pending_commit := false
    debounce_ms := 5000 }

/-- Fixture: an engine re-armed by a change at t=4000 with a 5000 ms
debounce window. -/
def stDeb : Engine :=
  { has_root := true, auto_update := true, today_zero := 0
    wc_roots := [["w"]], changed_today := [], prev_state := []
    last_change_ts := 4000, pending_commit := true, debounce_ms := 5000 }

/-- Fixture: an environment in which a new file appears under root `w`. -/
def envInv : Env :=
  { fs := [(["w", "b"], ⟨1, 1⟩)], walk := [(["w"], [".svn"])]
    run := fun _ => 0 }

/-- Fixture: an engine whose tick detects the new file and commits it. -/
def stInv : Engine :=
  { has_root := true, auto_update := false, today_zero := 0
    wc_roots := [["w"]], changed_today := [(["w"], [(["w", "a"], Kind.D)])]
    prev_state := [], last_change_ts := 0, pending_commit := false
    debounce_ms := 0 }

section DictLemmas

variable {α : Type} {β : Type} [DecidableEq α]

theorem dictGet_dictSet_self (l : List (α × β)) (k : α) (v : β) :
    dictGet (dictSet l k v) k = some v := by
  induction l with
  | nil => simp [dictGet, dictSet]
  | cons e t ih =>
    by_cases h : k = e.1
    · simp [dictGet, dictSet, h]
    · simp [dictGet, dictSet, h, ih]

theorem dictGet_dictSet_ne (l : List (α × β)) (k k' : α) (v : β)
    (h : k' ≠ k) : dictGet (dictSet l k v) k' = dictGet l k' := by
  induction l with
  | nil => simp [dictGet, dictSet, h]
  | cons e t ih =>
    by_cases he : k = e.1
    · subst he
      simp [dictGet, dictSet, h]
    · by_cases he' : k' = e.1
      · simp [dictGet, dictSet, he, he']
      · simp [dictGet, dictSet, he, he', ih]

theorem mem_dictSet (l : List (α × β)) (k : α) (v : β) (e : α × β)
    (h : e ∈ dictSet l k v) : e ∈ l ∨ e = (k, v) := by
  induction l with
  | nil => simpa [dictSet] using h
  | cons a t ih =>
    cases a with
    | mk a1 a2 =>
      by_cases ha : k = a1
      · have h' : e = (a1, v) ∨ e ∈ t := by simpa [dictSet, ha] using h
        rcases h' with h1 | h1
        · exact Or.inr (by rw [h1, ha])
        · exact Or.inl (List.mem_cons_of_mem _ h1)
      · have h' : e = (a1, a2) ∨ e ∈ dictSet t k v := by
          simpa [dictSet, ha] using h
        rcases h' with h1 | h1
        · exact Or.inl (h1 ▸ List.mem_cons_self _ _)
        · rcases ih h1 with h2 | h2
          · exact Or.inl (List.mem_cons_of_mem _ h2)
          · exact Or.inr h2

theorem mem_dictPop (l : List (α × β)) (k : α) (e : α × β)
    (h : e ∈ dictPop l k) : e ∈ l := by
  induction l with
  | nil => simp [dictPop] at h
  | cons a t ih =>
    by_cases ha : k = a.1
    · refine List.mem_cons_of_mem _ ?_
      simpa [dictPop, ha] using h
    · rcases (by simpa [dictPop, ha] using h : e = a ∨ e ∈ dictPop t k) with h1 | h1
      · exact h1 ▸ List.mem_cons_self a t
      · exact List.mem_cons_of_mem _ (ih h1)

theorem dictGet_mem (l : List (α × β)) (k : α) (v : β)
    (h : dictGet l k = some v) : (k, v) ∈ l := by
  induction l with
  | nil => simp [dictGet] at h
  | cons a t ih =>
    cases a with
    | mk a1 a2 =>
      by_cases ha : k = a1
      · subst ha
        simp [dictGet] at h
        subst h
        exact List.mem_cons_self _ _
      · exact List.mem_cons_of_mem _ (ih (by simpa [dictGet, ha] using h))

theorem dictGet_append_of_none (l : List (α × β)) (k : α) (v : β)
    (h : dictGet l k = none) : dictGet (l ++ [(k, v)]) k = some v := by
  induction l with
  | nil => simp [dictGet]
  | cons a t ih =>
    by_cases ha : k = a.1
    · simp [dictGet, ha] at h
    · simpa [dictGet, ha] using ih (by simpa [dictGet, ha] using h)

theorem foldl_dictPop_take (l : List (α × β)) (n : Nat) :
    List.foldl dictPop l ((l.map Prod.fst).take n) = l.drop n := by
  induction l generalizing n with
  | nil => simp
  | cons a t ih =>
    cases n with
    | zero => simp
    | succ n =>
      have hpop : dictPop (a :: t) a.1 = t := by
        simp [dictPop]
      simp only [List.map_cons, List.take_succ_cons, List.foldl_cons, hpop,
        List.drop_succ_cons]
      exact ih n

theorem mem_foldl_dictPop (ps : List α) (l : List (α × β)) (e : α × β)
    (h : e ∈ ps.foldl dictPop l) : e ∈ l := by
  induction ps generalizing l with
  | nil => simpa using h
  | cons p t ih => exact mem_dictPop _ _ _ (ih (dictPop l p) (by simpa using h))

end DictLemmas

theorem chunkFuel_congr {α : Type} (f : Nat) :
    ∀ (f' : Nat) (l : List α) (n : Nat), l.length ≤ f → l.length ≤ f' →
      0 < n → chunkFuel f l n = chunkFuel f' l n := by
  induction f with
  | zero =>
    intro f' l n h _ _
    cases l with
    | nil => cases f' <;> rfl
    | cons x xs => simp at h
  | succ f ih =>
    intro f' l n h h' hn
    cases l with
    | nil => cases f' <;> rfl
    | cons x xs =>
      cases f' with
      | zero => simp at h'
      | succ f' =>
        simp only [chunkFuel]
        congr 1
        apply ih
        · simp only [List.length_drop, List.length_cons]
          simp only [List.length_cons] at h
          omega
        · simp only [List.length_drop, List.length_cons]
          simp only [List.length_cons] at h'
          omega
        · exact hn

theorem chunk_cons {α : Type} (l : List α) (n : Nat) (hl : l ≠ [])
    (hn : 0 < n) : chunk l n = l.take n :: chunk (l.drop n) n := by
  cases l with
  | nil => exact absurd rfl hl
  | cons x xs =>
    show chunkFuel (xs.length + 1) (x :: xs) n = _
    simp only [chunkFuel]
    congr 1
    apply chunkFuel_congr
    · simp only [List.length_drop]
      simp
      omega
    · simp
    · exact hn

theorem chunk_of_length_le {α : Type} (l : List α) (n : Nat) (hl : l ≠ [])
    (hn : 0 < n) (h : l.length ≤ n) : chunk l n = [l] := by
  rw [chunk_cons l n hl hn, List.take_of_length_le h,
    List.drop_eq_nil_of_le h]
  rfl

theorem nearest_foldl_under (p : FsPath) :
    ∀ (l : List FsPath) (acc : Option FsPath × Int),
      (∀ w, acc.1 = some w → is_under p w = true) →
      ∀ w, (l.foldl (nearestStep p) acc).1 = some w → is_under p w = true := by
  intro l
  induction l with
  | nil => exact fun acc hacc w hw => hacc w hw
  | cons wc t ih =>
    intro acc hacc w hw
    refine ih (nearestStep p acc wc) ?_ w hw
    intro w' hw'
    unfold nearestStep at hw'
    by_cases hc : is_under p wc = true ∧ acc.2 < (pathStrLen wc : Int)
    · rw [if_pos hc] at hw'
      have : wc = w' := by simpa using hw'
      exact this ▸ hc.1
    · rw [if_neg hc] at hw'
      exact hacc w' hw'

theorem nearest_some_is_under (roots : List FsPath) (p wc : FsPath)
    (h : nearest_wc_root roots p = some wc) : is_under p wc = true := by
  refine nearest_foldl_under p roots (none, -1) ?_ wc h
  intro w hw
  simp at hw

theorem nearest_foldl_keep (p r : FsPath) :
    ∀ (l : List FsPath),
      (∀ r' ∈ l, is_under p r' = true → r' = r ∨ pathStrLen r' < pathStrLen r) →
      l.foldl (nearestStep p) (some r, (pathStrLen r : Int)) =
        (some r, (pathStrLen r : Int)) := by
  intro l
  induction l with
  | nil => intro _; rfl
  | cons wc t ih =>
    intro hmax
    have hstep : nearestStep p (some r, (pathStrLen r : Int)) wc =
        (some r, (pathStrLen r : Int)) := by
      unfold nearestStep
      rw [if_neg]
      intro hc
      rcases hmax wc (List.mem_cons_self _ _) hc.1 with he | hlt
      · exact absurd hc.2 (he ▸ lt_irrefl _)
      · have hcast : (pathStrLen wc : Int) < (pathStrLen r : Int) := by
          exact_mod_cast hlt
        exact absurd hc.2 (not_lt.mpr hcast.le)
    rw [List.foldl_cons, hstep]
    exact ih (fun r' hr' => hmax r' (List.mem_cons_of_mem _ hr'))

theorem nearest_foldl_reach (p r : FsPath) :
    ∀ (l : List FsPath) (acc : Option FsPath × Int),
      r ∈ l → is_under p r = true →
      (∀ r' ∈ l, is_under p r' = true → r' = r ∨ pathStrLen r' < pathStrLen r) →
      acc.2 < (pathStrLen r : Int) →
      l.foldl (nearestStep p) acc = (some r, (pathStrLen r : Int)) := by
  intro l
  induction l with
  | nil => intro acc h; simp at h
  | cons wc t ih =>
    intro acc hmem hr hmax hacc
    by_cases hwc : wc = r
    · subst hwc
      have hstep : nearestStep p acc wc = (some wc, (pathStrLen wc : Int)) := by
        unfold nearestStep
        rw [if_pos ⟨hr, hacc⟩]
      rw [List.foldl_cons, hstep]
      exact nearest_foldl_keep p wc t
        (fun r' h1 h2 => hmax r' (List.mem_cons_of_mem _ h1) h2)
    · have hrt : r ∈ t := by
        rcases List.mem_cons.mp hmem with h | h
        · exact absurd h.symm hwc
        · exact h
      have hmax' : ∀ r' ∈ t, is_under p r' = true →
          r' = r ∨ pathStrLen r' < pathStrLen r :=
        fun r' h1 h2 => hmax r' (List.mem_cons_of_mem _ h1) h2
      have hacc' : (nearestStep p acc wc).2 < (pathStrLen r : Int) := by
        unfold nearestStep
        by_cases hc : is_under p wc = true ∧ acc.2 < (pathStrLen wc : Int)
        · rw [if_pos hc]
          rcases hmax wc (List.mem_cons_self _ _) hc.1 with he | hlt
          · exact absurd he hwc
          · show (pathStrLen wc : Int) < (pathStrLen r : Int)
            exact_mod_cast hlt
        · rw [if_neg hc]
          exact hacc
      rw [List.foldl_cons]
      exact ih (nearestStep p acc wc) hrt hr hmax' hacc'

theorem nearest_longest (roots : List FsPath) (p r : FsPath)
    (hmem : r ∈ roots) (hr : is_under p r = true)
    (hmax : ∀ r' ∈ roots, is_under p r' = true →
      r' = r ∨ pathStrLen r' < pathStrLen r) :
    nearest_wc_root roots p = some r := by
  unfold nearest_wc_root
  rw [nearest_foldl_reach p r roots (none, -1) hmem hr hmax
    (lt_of_lt_of_le (by norm_num) (Int.natCast_nonneg _))]

theorem nearest_foldl_skip (p : FsPath) :
    ∀ (l : List FsPath) (acc : Option FsPath × Int),
      (∀ r' ∈ l, is_under p r' = false) →
      l.foldl (nearestStep p) acc = acc := by
  intro l
  induction l with
  | nil => intro acc _; rfl
  | cons wc t ih =>
    intro acc hnone
    have hstep : nearestStep p acc wc = acc := by
      unfold nearestStep
      rw [if_neg]
      intro hc
      rw [hnone wc (List.mem_cons_self _ _)] at hc
      exact Bool.false_ne_true hc.1
    rw [List.foldl_cons, hstep]
    exact ih acc (fun r' h1 => hnone r' (List.mem_cons_of_mem _ h1))

theorem nearest_none (roots : List FsPath) (p : FsPath)
    (h : ∀ r' ∈ roots, is_under p r' = false) :
    nearest_wc_root roots p = none := by
  unfold nearest_wc_root
  rw [nearest_foldl_skip p roots (none, -1) h]

theorem ledgerEntry_ledgerRecord (led : Ledger) (wc p : FsPath) (k : Kind) :
    ledgerEntry (ledgerRecord led wc p k) wc p = some k := by
  unfold ledgerRecord ledgerEntry
  cases h : dictGet led wc with
  | some inner => simp [dictGet_dictSet_self]
  | none =>
    rw [dictGet_append_of_none led wc _ h]
    simp [dictGet]

theorem ledgerInvB_iff (led : Ledger) : ledgerInvB led = true ↔ LedgerInv led := by
  unfold ledgerInvB LedgerInv
  rw [List.all_eq_true]
  constructor
  · intro h e he pe hpe
    have h2 := h e he
    rw [List.all_eq_true] at h2
    exact h2 pe hpe
  · intro h e he
    rw [List.all_eq_true]
    exact fun pe hpe => h e he pe hpe

theorem inv_map_empty (roots : List FsPath) :
    LedgerInv (roots.map (fun wc => (wc, []))) := by
  intro e he pe hpe
  rcases List.mem_map.mp he with ⟨wc, _, rfl⟩
  simp at hpe

theorem inv_ledgerRecord (led : Ledger) (wc p : FsPath) (k : Kind)
    (hinv : LedgerInv led) (hu : is_under p wc = true) :
    LedgerInv (ledgerRecord led wc p k) := by
  unfold ledgerRecord
  cases h : dictGet led wc with
  | some inner =>
    intro e he pe hpe
    rcases mem_dictSet led wc (dictSet inner p k) e he with h1 | h1
    · exact hinv e h1 pe hpe
    · rcases mem_dictSet inner p k pe (by rw [h1] at hpe; exact hpe) with h2 | h2
      · simpa [h1] using hinv (wc, inner) (dictGet_mem led wc inner h) pe h2
      · rw [h1, h2]
        exact hu
  | none =>
    intro e he pe hpe
    rcases List.mem_append.mp he with h1 | h1
    · exact hinv e h1 pe hpe
    · have he2 : e = (wc, [(p, k)]) := by simpa using h1
      have hpe2 : pe = (p, k) := by
        rw [he2] at hpe
        simpa using hpe
      rw [he2, hpe2]
      exact hu

theorem inv_recordMtimeStep (fs : List (FsPath × FileInfo)) (roots : List FsPath)
    (tz : Int) (k : Kind) (led : Ledger) (fp : FsPath)
    (hinv : LedgerInv led) : LedgerInv (recordMtimeStep fs roots tz k led fp) := by
  unfold recordMtimeStep
  split
  · exact hinv
  · cases hn : nearest_wc_root roots fp with
    | none => exact hinv
    | some wc =>
      show LedgerInv
        (match dictGet fs fp with
         | none => led
         | some info =>
           if tz ≤ info.mtime then ledgerRecord led wc fp k else led)
      cases hg : dictGet fs fp with
      | none => exact hinv
      | some info =>
        show LedgerInv (if tz ≤ info.mtime then ledgerRecord led wc fp k else led)
        split
        · exact inv_ledgerRecord led wc fp k hinv (nearest_some_is_under roots fp wc hn)
        · exact hinv

theorem inv_recordRemovedStep (roots : List FsPath) (tz now : Int)
    (led : Ledger) (fp : FsPath)
    (hinv : LedgerInv led) : LedgerInv (recordRemovedStep roots tz now led fp) := by
  unfold recordRemovedStep
  split
  · exact hinv
  · cases hn : nearest_wc_root roots fp with
    | none => exact hinv
    | some wc =>
      show LedgerInv (if tz ≤ now then ledgerRecord led wc fp Kind.D else led)
      split
      · exact inv_ledgerRecord led wc fp Kind.D hinv (nearest_some_is_under roots fp wc hn)
      · exact hinv

theorem inv_foldl_mtime (fs : List (FsPath × FileInfo)) (roots : List FsPath)
    (tz : Int) (k : Kind) :
    ∀ (l : List FsPath) (acc : Ledger), LedgerInv acc →
      LedgerInv (l.foldl (recordMtimeStep fs roots tz k) acc) := by
  intro l
  induction l with
  | nil => exact fun acc h => h
  | cons fp t ih =>
    exact fun acc h => ih _ (inv_recordMtimeStep fs roots tz k acc fp h)

theorem inv_foldl_removed (roots : List FsPath) (tz now : Int) :
    ∀ (l : List FsPath) (acc : Ledger), LedgerInv acc →
      LedgerInv (l.foldl (recordRemovedStep roots tz now) acc) := by
  intro l
  induction l with
  | nil => exact fun acc h => h
  | cons fp t ih =>
    exact fun acc h => ih _ (inv_recordRemovedStep roots tz now acc fp h)

theorem inv_record_today_changes (fs : List (FsPath × FileInfo))
    (roots : List FsPath) (tz now : Int) (led : Ledger)
    (a r m : List FsPath) (hinv : LedgerInv led) :
    LedgerInv (record_today_changes fs roots tz now led a r m) := by
  unfold record_today_changes
  exact inv_foldl_removed roots tz now r _
    (inv_foldl_mtime fs roots tz Kind.M m _
      (inv_foldl_mtime fs roots tz Kind.A a led hinv))

theorem inv_ledgerPopPaths (led : Ledger) (wc : FsPath) (ps : List FsPath)
    (hinv : LedgerInv led) : LedgerInv (ledgerPopPaths led wc ps) := by
  unfold ledgerPopPaths
  cases h : dictGet led wc with
  | none => exact hinv
  | some inner =>
    intro e he pe hpe
    rcases mem_dictSet led wc (ps.foldl dictPop inner) e he with h1 | h1
    · exact hinv e h1 pe hpe
    · have hin : pe ∈ inner :=
        mem_foldl_dictPop ps inner pe (by rw [h1] at hpe; exact hpe)
      simpa [h1] using hinv (wc, inner) (dictGet_mem led wc inner h) pe hin

theorem inv_foldl_commitChunk (run : SvnCmd → Int) (wc : FsPath) :
    ∀ (chs : List (List FsPath)) (acc : List SvnCmd × Ledger), LedgerInv acc.2 →
      LedgerInv ((chs.foldl (commitChunkStep run wc) acc).2) := by
  intro chs
  induction chs with
  | nil => exact fun acc h => h
  | cons ch t ih =>
    intro acc h
    refine ih _ ?_
    unfold commitChunkStep
    split
    · exact inv_ledgerPopPaths acc.2 wc ch h
    · exact h

theorem inv_commit_with_svn (run : SvnCmd → Int) (fs : List (FsPath × FileInfo))
    (wc : FsPath) (items : List (FsPath × Kind)) (led : Ledger)
    (hinv : LedgerInv led) :
    LedgerInv (commit_with_svn_today_only run fs wc items led).2 := by
  simp only [commit_with_svn_today_only]
  split
  · exact hinv
  · exact inv_foldl_commitChunk run wc _ _ hinv

theorem inv_validate (walk : List (FsPath × List String)) (st : Engine)
    (hinv : LedgerInv st.changed_today) :
    LedgerInv (validate_paths walk st).changed_today := by
  unfold validate_paths refresh_wc_roots
  split
  · exact inv_map_empty _
  · exact hinv

theorem inv_do_update (env : Env) (st : Engine)
    (hinv : LedgerInv st.changed_today) :
    LedgerInv (do_update env st).1.changed_today := by
  simp only [do_update]
  split
  · exact inv_validate env.walk st hinv
  · exact inv_validate env.walk st hinv

theorem inv_foldl_wcCommit (env : Env) :
    ∀ (l : List (FsPath × List (FsPath × Kind))) (acc : Engine × List SvnCmd),
      LedgerInv acc.1.changed_today →
      LedgerInv ((l.foldl (wcCommitStep env) acc).1.changed_today) := by
  intro l
  induction l with
  | nil => exact fun acc h => h
  | cons e t ih =>
    intro acc h
    refine ih _ ?_
    exact inv_commit_with_svn env.run env.fs e.1 e.2 acc.1.changed_today h

theorem inv_perform (env : Env) (st : Engine)
    (hinv : LedgerInv st.changed_today) :
    LedgerInv (perform_commit_today_only env st).1.changed_today := by
  simp only [perform_commit_today_only]
  split
  · exact inv_validate env.walk st hinv
  · split
    · exact inv_validate env.walk st hinv
    · refine inv_foldl_wcCommit env _ _ ?_
      split
      · exact inv_do_update env _ (inv_validate env.walk st hinv)
      · exact inv_validate env.walk st hinv

theorem inv_on_tick_body (env : Env) (now : Int) (st : Engine)
    (hinv : LedgerInv st.changed_today) :
    LedgerInv (on_tick_body env now st).1.changed_today := by
  simp only [on_tick_body]
  split
  · exact hinv
  · split
    · split
      · exact inv_perform env _ hinv
      · exact hinv
    · split
      · exact inv_perform env _ (inv_record_today_changes env.fs st.wc_roots
          st.today_zero now st.changed_today _ _ _ hinv)
      · exact inv_record_today_changes env.fs st.wc_roots st.today_zero now
          st.changed_today _ _ _ hinv

theorem inv_on_tick (env : Env) (now : Int) (st : Engine)
    (hinv : LedgerInv st.changed_today) :
    LedgerInv (on_tick env now st).1.changed_today := by
  unfold on_tick
  refine inv_on_tick_body env now _ ?_
  split
  · exact inv_map_empty _
  · exact hinv

theorem validate_fields (walk : List (FsPath × List String)) (st : Engine) :
    (validate_paths walk st).last_change_ts = st.last_change_ts ∧
    (validate_paths walk st).debounce_ms = st.debounce_ms ∧
    (validate_paths walk st).today_zero = st.today_zero := by
  unfold validate_paths refresh_wc_roots
  split <;> exact ⟨rfl, rfl, rfl⟩

theorem do_update_fields (env : Env) (st : Engine) :
    (do_update env st).1.last_change_ts = st.last_change_ts ∧
    (do_update env st).1.debounce_ms = st.debounce_ms ∧
    (do_update env st).1.today_zero = st.today_zero := by
  simp only [do_update]
  split
  · exact validate_fields env.walk st
  · exact validate_fields env.walk st

theorem wcCommit_foldl_fields (env : Env) :
    ∀ (l : List (FsPath × List (FsPath × Kind))) (acc : Engine × List SvnCmd),
      (l.foldl (wcCommitStep env) acc).1.last_change_ts = acc.1.last_change_ts ∧
      (l.foldl (wcCommitStep env) acc).1.debounce_ms = acc.1.debounce_ms ∧
      (l.foldl (wcCommitStep env) acc).1.today_zero = acc.1.today_zero := by
  intro l
  induction l with
  | nil => exact fun acc => ⟨rfl, rfl, rfl⟩
  | cons e t ih => exact fun acc => ih (wcCommitStep env acc e)

theorem perform_fields (env : Env) (st : Engine) :
    (perform_commit_today_only env st).1.last_change_ts = st.last_change_ts ∧
    (perform_commit_today_only env st).1.debounce_ms = st.debounce_ms ∧
    (perform_commit_today_only env st).1.today_zero = st.today_zero := by
  simp only [perform_commit_today_only]
  split
  · exact validate_fields env.walk st
  · split
    · exact validate_fields env.walk st
    · refine ⟨?_, ?_, ?_⟩
      · rw [(wcCommit_foldl_fields env _ _).1]
        split
        · exact (do_update_fields env _).1.trans (validate_fields env.walk st).1
        · exact (validate_fields env.walk st).1
      · rw [(wcCommit_foldl_fields env _ _).2.1]
        split
        · exact (do_update_fields env _).2.1.trans (validate_fields env.walk st).2.1
        · exact (validate_fields env.walk st).2.1
      · rw [(wcCommit_foldl_fields env _ _).2.2]
        split
        · exact (do_update_fields env _).2.2.trans (validate_fields env.walk st).2.2
        · exact (validate_fields env.walk st).2.2

theorem all_empty_getD (led : Ledger)
    (h : ∀ e ∈ led, e.2 = ([] : List (FsPath × Kind))) (wc : FsPath) :
    (dictGet led wc).getD [] = [] := by
  cases hg : dictGet led wc with
  | none => rfl
  | some v =>
    have hv : v = [] := h (wc, v) (dictGet_mem led wc v hg)
    simp [hv]

theorem validate_all_empty (walk : List (FsPath × List String)) (st : Engine)
    (h : ∀ e ∈ st.changed_today, e.2 = ([] : List (FsPath × Kind))) :
    ∀ e ∈ (validate_paths walk st).changed_today,
      e.2 = ([] : List (FsPath × Kind)) := by
  unfold validate_paths refresh_wc_roots
  split
  · intro e he
    rcases List.mem_map.mp he with ⟨wc, _, rfl⟩
    rfl
  · exact h

theorem perform_all_empty (env : Env) (st : Engine)
    (h : ∀ e ∈ st.changed_today, e.2 = ([] : List (FsPath × Kind))) :
    perform_commit_today_only env st = (validate_paths env.walk st, []) := by
  have h1 := validate_all_empty env.walk st h
  simp only [perform_commit_today_only]
  split
  · rfl
  · split
    · rfl
    · rename_i hne
      exfalso
      apply hne
      rw [List.isEmpty_iff]
      refine List.filterMap_eq_nil_iff.mpr ?_
      intro wc _
      rw [all_empty_getD _ h1 wc]
      rfl

theorem cleanStep_cases (fs : List (FsPath × FileInfo)) (tz : Int) (wc : FsPath)
    (clean : List (FsPath × Kind)) (e : FsPath × Kind) :
    cleanStep fs tz wc clean e = clean ∨
    ∃ v, cleanStep fs tz wc clean e = dictSet clean e.1 v := by
  unfold cleanStep
  split
  · split
    · cases hg : dictGet fs e.1 with
      | none => exact Or.inr ⟨Kind.D, rfl⟩
      | some info =>
        rcases le_or_lt tz info.mtime with hm | hm
        · refine Or.inr ⟨e.2, ?_⟩
          show (if tz ≤ info.mtime then dictSet clean e.1 e.2 else clean) = _
          rw [if_pos hm]
        · refine Or.inl ?_
          show (if tz ≤ info.mtime then dictSet clean e.1 e.2 else clean) = clean
          rw [if_neg (not_le.mpr hm)]
    · split
      · exact Or.inr ⟨Kind.D, rfl⟩
      · exact Or.inl rfl
  · exact Or.inl rfl

theorem dictGet_cleanStep_ne (fs : List (FsPath × FileInfo)) (tz : Int)
    (wc : FsPath) (clean : List (FsPath × Kind)) (e : FsPath × Kind)
    (q : FsPath) (h : q ≠ e.1) :
    dictGet (cleanStep fs tz wc clean e) q = dictGet clean q := by
  rcases cleanStep_cases fs tz wc clean e with hc | ⟨v, hc⟩
  · rw [hc]
  · rw [hc, dictGet_dictSet_ne _ _ _ _ h]

theorem dictGet_foldl_clean_notmem (fs : List (FsPath × FileInfo)) (tz : Int)
    (wc : FsPath) :
    ∀ (l : List (FsPath × Kind)) (acc : List (FsPath × Kind)) (q : FsPath),
      q ∉ l.map Prod.fst →
      dictGet (l.foldl (cleanStep fs tz wc) acc) q = dictGet acc q := by
  intro l
  induction l with
  | nil => exact fun acc q _ => rfl
  | cons e t ih =>
    intro acc q hq
    rw [List.map_cons] at hq
    have hq1 : q ≠ e.1 := fun hc => hq (hc ▸ List.mem_cons_self _ _)
    have hq2 : q ∉ t.map Prod.fst := fun hc => hq (List.mem_cons_of_mem _ hc)
    rw [List.foldl_cons, ih _ q hq2, dictGet_cleanStep_ne _ _ _ _ _ _ hq1]

theorem clean_foldl_deleted (fs : List (FsPath × FileInfo)) (tz : Int)
    (wc : FsPath) :
    ∀ (items : List (FsPath × Kind)) (acc : List (FsPath × Kind))
      (p : FsPath) (k : Kind),
      (items.map Prod.fst).Nodup →
      dictGet items p = some k →
      (k = Kind.A ∨ k = Kind.M) →
      dictGet fs p = none →
      is_under p wc = true →
      dictGet (items.foldl (cleanStep fs tz wc) acc) p = some Kind.D := by
  intro items
  induction items with
  | nil =>
    intro acc p k _ hg
    simp [dictGet] at hg
  | cons e t ih =>
    intro acc p k hnd hg hk hfs hu
    obtain ⟨p0, k0⟩ := e
    by_cases hp : p = p0
    · subst hp
      have hk0 : k0 = k := by simpa [dictGet] using hg
      subst hk0
      have hstep : cleanStep fs tz wc acc (p, k0) = dictSet acc p Kind.D := by
        unfold cleanStep
        rw [if_pos hu, if_pos hk, hfs]
      rw [List.foldl_cons, hstep]
      have hnot : p ∉ t.map Prod.fst := (List.nodup_cons.mp hnd).1
      rw [dictGet_foldl_clean_notmem fs tz wc t _ p hnot, dictGet_dictSet_self]
    · have hgt : dictGet t p = some k := by simpa [dictGet, hp] using hg
      have hnd' : (t.map Prod.fst).Nodup := (List.nodup_cons.mp hnd).2
      rw [List.foldl_cons]
      exact ih _ p k hnd' hgt hk hfs hu

theorem commitsOf_append (a b : List SvnCmd) :
    commitsOf (a ++ b) = commitsOf a ++ commitsOf b := by
  unfold commitsOf
  rw [List.filter_append]

theorem commitsOf_map_add (l : List (List FsPath)) :
    commitsOf (l.map SvnCmd.add) = [] := by
  induction l with
  | nil => rfl
  | cons x t ih => simp [commitsOf, isCommit, ih]

theorem commitsOf_map_rm (l : List (List FsPath)) :
    commitsOf (l.map SvnCmd.rm) = [] := by
  induction l with
  | nil => rfl
  | cons x t ih => simp [commitsOf, isCommit, ih]

theorem ledgerPopPaths_eq (led : Ledger) (wc : FsPath)
    (m : List (FsPath × Kind)) (ps : List FsPath)
    (h : dictGet led wc = some m) :
    ledgerPopPaths led wc ps = dictSet led wc (ps.foldl dictPop m) := by
  unfold ledgerPopPaths
  rw [h]

theorem record_singleton_added (fs : List (FsPath × FileInfo))
    (roots : List FsPath) (tz now : Int) (led : Ledger) (p : FsPath) :
    record_today_changes fs roots tz now led [p] [] [] =
      recordMtimeStep fs roots tz Kind.A led p := rfl

theorem record_singleton_modified (fs : List (FsPath × FileInfo))
    (roots : List FsPath) (tz now : Int) (led : Ledger) (p : FsPath) :
    record_today_changes fs roots tz now led [] [] [p] =
      recordMtimeStep fs roots tz Kind.M led p := rfl

theorem record_singleton_removed (fs : List (FsPath × FileInfo))
    (roots : List FsPath) (tz now : Int) (led : Ledger) (p : FsPath) :
    record_today_changes fs roots tz now led [] [p] [] =
      recordRemovedStep roots tz now led p := rfl

theorem recordMtimeStep_sets (fs : List (FsPath × FileInfo))
    (roots : List FsPath) (tz : Int) (k : Kind) (led : Ledger)
    (p wc : FsPath) (info : FileInfo)
    (hig : is_ignored p = false) (hn : nearest_wc_root roots p = some wc)
    (hget : dictGet fs p = some info) (hm : tz ≤ info.mtime) :
    recordMtimeStep fs roots tz k led p = ledgerRecord led wc p k := by
  unfold recordMtimeStep
  rw [hig, if_neg Bool.false_ne_true, hn]
  show (match dictGet fs p with
        | none => led
        | some info =>
          if tz ≤ info.mtime then ledgerRecord led wc p k else led) = _
  rw [hget]
  show (if tz ≤ info.mtime then ledgerRecord led wc p k else led) = _
  rw [if_pos hm]

theorem recordMtimeStep_skip_before (fs : List (FsPath × FileInfo))
    (roots : List FsPath) (tz : Int) (k : Kind) (led : Ledger)
    (p : FsPath) (info : FileInfo)
    (hget : dictGet fs p = some info) (hm : info.mtime < tz) :
    recordMtimeStep fs roots tz k led p = led := by
  unfold recordMtimeStep
  by_cases hig : is_ignored p = true
  · rw [hig, if_pos rfl]
  · rw [if_neg hig]
    cases hn : nearest_wc_root roots p with
    | none => rfl
    | some wc =>
      show (match dictGet fs p with
            | none => led
            | some info =>
              if tz ≤ info.mtime then ledgerRecord led wc p k else led) = led
      rw [hget]
      show (if tz ≤ info.mtime then ledgerRecord led wc p k else led) = led
      rw [if_neg (not_le.mpr hm)]

theorem recordMtimeStep_skip_none (fs : List (FsPath × FileInfo))
    (roots : List FsPath) (tz : Int) (k : Kind) (led : Ledger) (p : FsPath)
    (hn : nearest_wc_root roots p = none) :
    recordMtimeStep fs roots tz k led p = led := by
  unfold recordMtimeStep
  by_cases hig : is_ignored p = true
  · rw [hig, if_pos rfl]
  · rw [if_neg hig, hn]

theorem recordMtimeStep_skip_ignored (fs : List (FsPath × FileInfo))
    (roots : List FsPath) (tz : Int) (k : Kind) (led : Ledger) (p : FsPath)
    (hig : is_ignored p = true) :
    recordMtimeStep fs roots tz k led p = led := by
  unfold recordMtimeStep
  rw [hig, if_pos rfl]

theorem recordRemovedStep_sets (roots : List FsPath) (tz now : Int)
    (led : Ledger) (p wc : FsPath)
    (hig : is_ignored p = false) (hn : nearest_wc_root roots p = some wc)
    (hnow : tz ≤ now) :
    recordRemovedStep roots tz now led p = ledgerRecord led wc p Kind.D := by
  unfold recordRemovedStep
  rw [hig, if_neg Bool.false_ne_true, hn]
  show (if tz ≤ now then ledgerRecord led wc p Kind.D else led) = _
  rw [if_pos hnow]

theorem recordRemovedStep_skip_before (roots : List FsPath) (tz now : Int)
    (led : Ledger) (p : FsPath) (hnow : now < tz) :
    recordRemovedStep roots tz now led p = led := by
  unfold recordRemovedStep
  by_cases hig : is_ignored p = true
  · rw [hig, if_pos rfl]
  · rw [if_neg hig]
    cases hn : nearest_wc_root roots p with
    | none => rfl
    | some wc =>
      show (if tz ≤ now then ledgerRecord led wc p Kind.D else led) = led
      rw [if_neg (not_le.mpr hnow)]

theorem recordRemovedStep_skip_none (roots : List FsPath) (tz now : Int)
    (led : Ledger) (p : FsPath) (hn : nearest_wc_root roots p = none) :
    recordRemovedStep roots tz now led p = led := by
  unfold recordRemovedStep
  by_cases hig : is_ignored p = true
  · rw [hig, if_pos rfl]
  · rw [if_neg hig, hn]

theorem recordRemovedStep_skip_ignored (roots : List FsPath) (tz now : Int)
    (led : Ledger) (p : FsPath) (hig : is_ignored p = true) :
    recordRemovedStep roots tz now led p = led := by
  unfold recordRemovedStep
  rw [hig, if_pos rfl]

theorem tick_body_commit_gate (env : Env) (now : Int) (st : Engine) :
    (∃ c ∈ (on_tick_body env now st).2, isCommit c = true) →
    st.debounce_ms ≤ now - (on_tick_body env now st).1.last_change_ts := by
  simp only [on_tick_body]
  split
  · rintro ⟨c, hc, -⟩
    exact absurd hc (List.not_mem_nil c)
  · split
    · split
      · rename_i hcond
        intro _
        rw [(perform_fields env _).1]
        exact hcond.2
      · rintro ⟨c, hc, -⟩
        exact absurd hc (List.not_mem_nil c)
    · split
      · rename_i hcond
        intro _
        rw [(perform_fields env _).1]
        exact hcond.2
      · rintro ⟨c, hc, -⟩
        exact absurd hc (List.not_mem_nil c)

theorem tick_body_rearm (env : Env) (now : Int) (st : Engine)
    (hroot : st.has_root = true)
    (hch : ¬((diff_states st.prev_state (snapshot_tree env.fs)).1 = [] ∧
             (diff_states st.prev_state (snapshot_tree env.fs)).2.1 = [] ∧
             (diff_states st.prev_state (snapshot_tree env.fs)).2.2 = [])) :
    (on_tick_body env now st).1.last_change_ts = now := by
  simp only [on_tick_body]
  rw [if_neg (by simp [hroot]), if_neg hch]
  split
  · rw [(perform_fields env _).1]
  · rfl

theorem tick_body_quiet (env : Env) (now : Int) (st : Engine)
    (hdb : st.debounce_ms = 5000) (hlast : st.last_change_ts = 4000)
    (hnow : now < 9000) :
    (on_tick_body env now st).2 = [] := by
  simp only [on_tick_body]
  split
  · rfl
  · split
    · rw [if_neg (by
        rintro ⟨-, hc⟩
        rw [hdb, hlast] at hc
        omega)]
    · rw [if_neg (by
        rintro ⟨-, hc⟩
        have hc2 : st.debounce_ms ≤ now - now := hc
        rw [hdb] at hc2
        omega)]

theorem tick_body_all_empty (env : Env) (now : Int) (st : Engine)
    (hdiff : diff_states st.prev_state (snapshot_tree env.fs) = ([], [], []))
    (hemp : ∀ e ∈ st.changed_today, e.2 = ([] : List (FsPath × Kind))) :
    (∀ e ∈ (on_tick_body env now st).1.changed_today,
      e.2 = ([] : List (FsPath × Kind))) ∧
    (on_tick_body env now st).1.today_zero = st.today_zero := by
  simp only [on_tick_body]
  split
  · exact ⟨hemp, rfl⟩
  · have h3 : (diff_states st.prev_state (snapshot_tree env.fs)).1 = [] ∧
        (diff_states st.prev_state (snapshot_tree env.fs)).2.1 = [] ∧
        (diff_states st.prev_state (snapshot_tree env.fs)).2.2 = [] := by
      rw [hdiff]
      exact ⟨rfl, rfl, rfl⟩
    rw [if_pos h3]
    split
    · constructor
      · rw [perform_all_empty env { st with pending_commit := false } hemp]
        exact validate_all_empty env.walk _ hemp
      · rw [perform_all_empty env { st with pending_commit := false } hemp]
        exact (validate_fields env.walk _).2.2
    · exact ⟨hemp, rfl⟩

theorem tick_body_keep (env : Env) (now : Int) (st : Engine)
    (hdiff : diff_states st.prev_state (snapshot_tree env.fs) = ([], [], []))
    (hnc : ¬(st.pending_commit = true ∧
             st.debounce_ms ≤ now - st.last_change_ts)) :
    (on_tick_body env now st).1.changed_today = st.changed_today ∧
    (on_tick_body env now st).1.today_zero = st.today_zero := by
  simp only [on_tick_body]
  split
  · exact ⟨rfl, rfl⟩
  · have h3 : (diff_states st.prev_state (snapshot_tree env.fs)).1 = [] ∧
        (diff_states st.prev_state (snapshot_tree env.fs)).2.1 = [] ∧
        (diff_states st.prev_state (snapshot_tree env.fs)).2.2 = [] := by
      rw [hdiff]
      exact ⟨rfl, rfl, rfl⟩
    rw [if_pos h3, if_neg hnc]
    exact ⟨rfl, rfl⟩

/-- Claim C1: with 120 ledger entries and the commit batch size of 80, the
commit step issues exactly two commit invocations, of 80 and 40 paths, in
order; a batch exiting 0 removes exactly its paths from the ledger and a
batch exiting non-zero leaves its paths untouched, so with the first batch
succeeding and the second failing exactly the last 40 entries remain, and
other working copies' ledgers are untouched. -/
theorem claim_C1_chunked_commit (run : SvnCmd → Int)
    (fs : List (FsPath × FileInfo)) (wc : FsPath)
    (m : List (FsPath × Kind)) (led : Ledger)
    (hget : dictGet led wc = some m)
    (hlen : m.length = 120)
    (h1 : run (SvnCmd.commit ((m.map Prod.fst).take 80)) = 0)
    (h2 : run (SvnCmd.commit ((m.map Prod.fst).drop 80)) ≠ 0) :
    commitsOf (commit_with_svn_today_only run fs wc m led).1 =
      [SvnCmd.commit ((m.map Prod.fst).take 80),
       SvnCmd.commit ((m.map Prod.fst).drop 80)] ∧
    ((m.map Prod.fst).take 80).length = 80 ∧
    ((m.map Prod.fst).drop 80).length = 40 ∧
    dictGet (commit_with_svn_today_only run fs wc m led).2 wc =
      some (m.drop 80) ∧
    (m.drop 80).length = 40 ∧
    (∀ wc', wc' ≠ wc →
      dictGet (commit_with_svn_today_only run fs wc m led).2 wc' =
        dictGet led wc') := by
  have hmne : (m.map Prod.fst) ≠ [] := by
    intro hc
    have hl := congrArg List.length hc
    rw [List.length_map, hlen] at hl
    simp at hl
  have hdne : ((m.map Prod.fst).drop 80) ≠ [] := by
    intro hc
    have hl := congrArg List.length hc
    rw [List.length_drop, List.length_map, hlen] at hl
    simp at hl
  have hchunk : chunk (m.map Prod.fst) 80 =
      [(m.map Prod.fst).take 80, (m.map Prod.fst).drop 80] := by
    rw [chunk_cons _ 80 hmne (by norm_num)]
    rw [chunk_of_length_le _ 80 hdne (by norm_num)
      (by rw [List.length_drop, List.length_map, hlen]; norm_num)]
  have hemp : ¬((m.map Prod.fst).isEmpty = true) := by
    rw [List.isEmpty_iff]
    exact hmne
  simp only [commit_with_svn_today_only]
  rw [if_neg hemp, hchunk]
  simp only [List.foldl_cons, List.foldl_nil, commitChunkStep]
  rw [if_pos h1, if_neg h2]
  rw [ledgerPopPaths_eq led wc m _ hget, foldl_dictPop_take]
  refine ⟨?_, ?_, ?_, ?_, ?_, ?_⟩
  · simp only [commitsOf_append, commitsOf_map_add, commitsOf_map_rm]
    simp [commitsOf, isCommit]
  · simp [List.length_take, List.length_map, hlen]
  · simp [List.length_drop, List.length_map, hlen]
  · exact dictGet_dictSet_self led wc (m.drop 80)
  · simp [List.length_drop, hlen]
  · intro wc' h
    exact dictGet_dictSet_ne led wc wc' (m.drop 80) h

/-- Witness for claim C1 at a concrete 120-entry ledger and a backend that
succeeds exactly on 80-path batches. -/
theorem claim_C1_witness :
    commitsOf (commit_with_svn_today_only runW fsW ["wc"] mW ledW).1 =
      [SvnCmd.commit ((mW.map Prod.fst).take 80),
       SvnCmd.commit ((mW.map Prod.fst).drop 80)] ∧
    dictGet (commit_with_svn_today_only runW fsW ["wc"] mW ledW).2 ["wc"] =
      some (mW.drop 80) ∧
    (mW.drop 80).length = 40 := by
  have h := claim_C1_chunked_commit runW fsW ["wc"] mW ledW (by decide)
    (by decide) (by decide) (by decide)
  exact ⟨h.1, h.2.2.2.1, h.2.2.2.2.1⟩

/-- Claim C2: re-validation turns every Added/Modified ledger entry whose
file no longer exists on disk into a Deleted entry of the commit target
set. -/
theorem claim_C2_revalidate_deleted (fs : List (FsPath × FileInfo))
    (tz : Int) (wc : FsPath) (items : List (FsPath × Kind))
    (p : FsPath) (k : Kind)
    (hnd : (items.map Prod.fst).Nodup)
    (hget : dictGet items p = some k)
    (hk : k = Kind.A ∨ k = Kind.M)
    (hfs : dictGet fs p = none)
    (hu : is_under p wc = true) :
    dictGet (clean_items fs tz wc items) p = some Kind.D := by
  unfold clean_items
  exact clean_foldl_deleted fs tz wc items [] p k hnd hget hk hfs hu

/-- Witness for claim C2: a file recorded Added today and deleted before the
commit appears in the cleaned target set as Deleted. -/
theorem claim_C2_witness :
    dictGet (clean_items [] 0 ["w"] [(["w", "a"], Kind.A)]) ["w", "a"] =
      some Kind.D :=
  claim_C2_revalidate_deleted [] 0 ["w"] [(["w", "a"], Kind.A)] ["w", "a"]
    Kind.A (by decide) (by decide) (Or.inl rfl) (by decide) (by decide)

/-- Claim C3: the first tick at or after `today_zero` + 24h empties every
working copy's inner ledger map and re-stamps `today_zero` to the current
day's midnight; a tick before that instant (with no new changes and the
debounce gate closed) leaves the ledger and `today_zero` unchanged. -/
theorem claim_C3_day_rollover :
    (∀ (env : Env) (st : Engine) (now : Int),
      st.today_zero + dayMs ≤ now →
      diff_states st.prev_state (snapshot_tree env.fs) = ([], [], []) →
      (∀ e ∈ (on_tick env now st).1.changed_today,
        e.2 = ([] : List (FsPath × Kind))) ∧
      (on_tick env now st).1.today_zero = start_of_today now) ∧
    (∀ (env : Env) (st : Engine) (now : Int),
      now < st.today_zero + dayMs →
      diff_states st.prev_state (snapshot_tree env.fs) = ([], [], []) →
      ¬(st.pending_commit = true ∧
        st.debounce_ms ≤ now - st.last_change_ts) →
      (on_tick env now st).1.changed_today = st.changed_today ∧
      (on_tick env now st).1.today_zero = st.today_zero) := by
  constructor
  · intro env st now hroll hdiff
    unfold on_tick
    rw [if_pos hroll]
    have h := tick_body_all_empty env now (reset_today now st) hdiff
      (by
        intro e he
        rcases List.mem_map.mp he with ⟨wc, -, rfl⟩
        rfl)
    exact ⟨h.1, h.2⟩
  · intro env st now hroll hdiff hnc
    unfold on_tick
    rw [if_neg (not_le.mpr hroll)]
    exact tick_body_keep env now st hdiff hnc

/-- Witness for claim C3: an engine with one yesterday entry rolls over at
the first tick of the next day and its ledger becomes empty. -/
theorem claim_C3_witness :
    (∀ e ∈ (on_tick envQuiet 86400000 stRoll).1.changed_today,
      e.2 = ([] : List (FsPath × Kind))) ∧
    (on_tick envQuiet 86400000 stRoll).1.today_zero =
      start_of_today 86400000 :=
  (claim_C3_day_rollover.1 envQuiet stRoll 86400000 (by decide) (by decide))

/-- Claim C5: the owning working copy of a path is the discovered root of
greatest path-string length that is an ancestor of the path; a path under no
discovered root has no owning copy and `record` leaves the ledger unchanged
for it. -/
theorem claim_C5_owning_root :
    (∀ (roots : List FsPath) (p r : FsPath),
      r ∈ roots → is_under p r = true →
      (∀ s ∈ roots, is_under p s = true →
        s = r ∨ pathStrLen s < pathStrLen r) →
      nearest_wc_root roots p = some r) ∧
    (∀ (roots : List FsPath) (p : FsPath),
      (∀ s ∈ roots, is_under p s = false) →
      nearest_wc_root roots p = none) ∧
    (∀ (fs : List (FsPath × FileInfo)) (roots : List FsPath) (tz now : Int)
      (led : Ledger) (p : FsPath),
      (∀ s ∈ roots, is_under p s = false) →
      record_today_changes fs roots tz now led [p] [] [] = led ∧
      record_today_changes fs roots tz now led [] [p] [] = led ∧
      record_today_changes fs roots tz now led [] [] [p] = led) := by
  refine ⟨?_, ?_, ?_⟩
  · exact fun roots p r hmem hr hmax => nearest_longest roots p r hmem hr hmax
  · exact fun roots p h => nearest_none roots p h
  · intro fs roots tz now led p h
    have hn := nearest_none roots p h
    refine ⟨?_, ?_, ?_⟩
    · rw [record_singleton_added]
      exact recordMtimeStep_skip_none fs roots tz Kind.A led p hn
    · rw [record_singleton_removed]
      exact recordRemovedStep_skip_none roots tz now led p hn
    · rw [record_singleton_modified]
      exact recordMtimeStep_skip_none fs roots tz Kind.M led p hn

/-- Witness for claim C5: with nested roots `root/A` and `root/A/ext/B`, a
file under `B` resolves to `B`, and a path under no root resolves to none. -/
theorem claim_C5_witness :
    nearest_wc_root [["root", "A"], ["root", "A", "ext", "B"]]
      ["root", "A", "ext", "B", "f.txt"] = some ["root", "A", "ext", "B"] ∧
    nearest_wc_root [["root", "A"], ["root", "A", "ext", "B"]]
      ["x", "y"] = none := by
  constructor
  · exact claim_C5_owning_root.1 _ _ _ (by decide) (by decide) (by decide)
  · exact claim_C5_owning_root.2.1 _ _ (by decide)

/-- Claim C6: the loop never issues a commit while the elapsed time since
the last detected change is below the debounce window; every detected change
re-arms the window by setting the last-change time to the tick instant; and
with a 5000 ms window re-armed at t=4000, no tick before t=9000 issues any
invocation. -/
theorem claim_C6_debounce_gate :
    (∀ (env : Env) (st : Engine) (now : Int),
      (∃ c ∈ (on_tick env now st).2, isCommit c = true) →
      st.debounce_ms ≤ now - (on_tick env now st).1.last_change_ts) ∧
    (∀ (env : Env) (st : Engine) (now : Int),
      st.has_root = true →
      diff_states st.prev_state (snapshot_tree env.fs) ≠ ([], [], []) →
      (on_tick env now st).1.last_change_ts = now) ∧
    (∀ (env : Env) (st : Engine) (now : Int),
      st.debounce_ms = 5000 → st.last_change_ts = 4000 → now < 9000 →
      (on_tick env now st).2 = []) := by
  refine ⟨?_, ?_, ?_⟩
  · intro env st now hex
    unfold on_tick at hex ⊢
    have hd : (if st.today_zero + dayMs ≤ now then reset_today now st
        else st).debounce_ms = st.debounce_ms := by
      split <;> rfl
    rw [← hd]
    exact tick_body_commit_gate env now _ hex
  · intro env st now hroot hch
    unfold on_tick
    apply tick_body_rearm
    · show (if st.today_zero + dayMs ≤ now then reset_today now st
        else st).has_root = true
      split <;> exact hroot
    · have hprev : (if st.today_zero + dayMs ≤ now then reset_today now st
          else st).prev_state = st.prev_state := by
        split <;> rfl
      rw [hprev]
      intro hc
      exact hch (Prod.ext hc.1 (Prod.ext hc.2.1 hc.2.2))
  · intro env st now hdb hlast hnow
    unfold on_tick
    apply tick_body_quiet
    · show (if st.today_zero + dayMs ≤ now then reset_today now st
        else st).debounce_ms = 5000
      split <;> exact hdb
    · show (if st.today_zero + dayMs ≤ now then reset_today now st
        else st).last_change_ts = 4000
      split <;> exact hlast
    · exact hnow

/-- Witness for claim C6: with the window re-armed at t=4000, the tick at
t=8999 issues no invocation at all. -/
theorem claim_C6_witness : (on_tick envQuiet 8999 stDeb).2 = [] :=
  claim_C6_debounce_gate.2.2 envQuiet stDeb 8999 rfl rfl (by decide)

/-- Claim C7: the three sets of `diff_states` are pairwise disjoint and
their union is exactly the symmetric difference of the key sets together
with the common keys whose fingerprints changed. -/
theorem claim_C7_diff_partition (old new : List (FsPath × FileInfo))
    (k : FsPath) :
    (¬(k ∈ (diff_states old new).1 ∧ k ∈ (diff_states old new).2.1) ∧
     ¬(k ∈ (diff_states old new).1 ∧ k ∈ (diff_states old new).2.2) ∧
     ¬(k ∈ (diff_states old new).2.1 ∧ k ∈ (diff_states old new).2.2)) ∧
    ((k ∈ (diff_states old new).1 ∨ k ∈ (diff_states old new).2.1 ∨
      k ∈ (diff_states old new).2.2) ↔
     ((k ∈ new.map Prod.fst ∧ k ∉ old.map Prod.fst) ∨
      (k ∈ old.map Prod.fst ∧ k ∉ new.map Prod.fst) ∨
      (k ∈ old.map Prod.fst ∧ k ∈ new.map Prod.fst ∧
        dictGet old k ≠ dictGet new k))) := by
  simp only [diff_states, List.mem_filter, decide_eq_true_eq]
  constructor
  · refine ⟨?_, ?_, ?_⟩ <;> tauto
  · tauto

/-- Claim C8: every tick preserves the ledger invariant that each inner key
lies under its working-copy root, and containment is a path-component check,
so the sibling path `root/foo` is not judged to lie under the root
`root/f`. -/
theorem claim_C8_ledger_invariant :
    (∀ (env : Env) (now : Int) (st : Engine),
      ledgerInvB st.changed_today = true →
      ledgerInvB (on_tick env now st).1.changed_today = true) ∧
    is_under ["root", "foo"] ["root", "f"] = false := by
  constructor
  · intro env now st h
    rw [ledgerInvB_iff] at h ⊢
    exact inv_on_tick env now st h
  · decide

/-- Witness for claim C8: a tick that records a new file and runs a
successful commit keeps the invariant on a concrete engine. -/
theorem claim_C8_witness :
    ledgerInvB stInv.changed_today = true ∧
    ledgerInvB (on_tick envInv 5 stInv).1.changed_today = true :=
  ⟨by decide, claim_C8_ledger_invariant.1 envInv 5 stInv (by decide)⟩

/-- Claim C9 (amended): the Working-Copy Locator returns exactly the walked
directories with a `.svn` child directory, without duplicates, sorted by
path-string length ascending and, among equal lengths, lexicographically by
the lowercased path string. -/
theorem claim_C9_locator_sorted (walk : List (FsPath × List String)) :
    List.Sorted rootLe (find_working_copy_roots walk) ∧
    (find_working_copy_roots walk).Nodup ∧
    (∀ p : FsPath, p ∈ find_working_copy_roots walk ↔
      ∃ ds, (p, ds) ∈ walk ∧
        ds.any (fun d => lowerStr d == ".svn") = true) := by
  refine ⟨?_, ?_, ?_⟩
  · exact List.sorted_insertionSort rootLe _
  · exact ((List.perm_insertionSort rootLe _).nodup_iff).mpr
      (List.nodup_dedup _)
  · intro p
    unfold find_working_copy_roots
    rw [List.mem_insertionSort, List.mem_dedup, List.mem_map]
    constructor
    · rintro ⟨e, he, rfl⟩
      rcases List.mem_filter.mp he with ⟨hw, hp⟩
      exact ⟨e.2, hw, hp⟩
    · rintro ⟨ds, hmem, hsvn⟩
      exact ⟨(p, ds), List.mem_filter.mpr ⟨hmem, hsvn⟩, rfl⟩

/-- Counterexample to claim C9 as stated: among the equal-length roots `B`
and `a` the locator orders `a` first, because the sort key lowercases the
path; the case-sensitive lexicographic order the claim asserts would place
`B` (code point 66) before `a` (code point 97). -/
theorem claim_C9_counterexample :
    find_working_copy_roots [(["B"], [".svn"]), (["a"], [".svn"])] =
      [["a"], ["B"]] ∧
    ¬ List.Sorted specRootLe
      (find_working_copy_roots [(["B"], [".svn"]), (["a"], [".svn"])]) := by
  have hfind : find_working_copy_roots [(["B"], [".svn"]), (["a"], [".svn"])]
      = [["a"], ["B"]] := by decide
  refine ⟨hfind, ?_⟩
  rw [hfind]
  intro h
  have hle := (List.pairwise_cons.mp h).1 ["B"] (List.mem_cons_self _ _)
  rcases hle with hlt | ⟨-, hle⟩
  · exact absurd hlt (by decide)
  · exact absurd hle (by decide)

/-- Claim C4 (amended): `record` adds or overwrites the entry for the owning
working copy exactly when the detection time is on/after the tracked
start-of-day, the path has an owning working copy, and the path is not
filtered by the transient-ignore rule; the cutoff is inclusive at equality
and excludes any strictly earlier detection time; deletions use the
detection instant `now`. -/
theorem claim_C4_record_today_cutoff (fs : List (FsPath × FileInfo))
    (roots : List FsPath) (tz now : Int) (led : Ledger)
    (p wc : FsPath) (info : FileInfo) :
    (is_ignored p = false → nearest_wc_root roots p = some wc →
      dictGet fs p = some info → tz ≤ info.mtime →
      ledgerEntry (record_today_changes fs roots tz now led [p] [] []) wc p
        = some Kind.A) ∧
    (is_ignored p = false → nearest_wc_root roots p = some wc →
      dictGet fs p = some info → tz ≤ info.mtime →
      ledgerEntry (record_today_changes fs roots tz now led [] [] [p]) wc p
        = some Kind.M) ∧
    (dictGet fs p = some info → info.mtime < tz →
      record_today_changes fs roots tz now led [p] [] [] = led ∧
      record_today_changes fs roots tz now led [] [] [p] = led) ∧
    (nearest_wc_root roots p = none →
      record_today_changes fs roots tz now led [p] [] [] = led) ∧
    (is_ignored p = true →
      record_today_changes fs roots tz now led [p] [] [] = led ∧
      record_today_changes fs roots tz now led [] [p] [] = led ∧
      record_today_changes fs roots tz now led [] [] [p] = led) ∧
    (is_ignored p = false → nearest_wc_root roots p = some wc → tz ≤ now →
      ledgerEntry (record_today_changes fs roots tz now led [] [p] []) wc p
        = some Kind.D) ∧
    (now < tz →
      record_today_changes fs roots tz now led [] [p] [] = led) := by
  refine ⟨?_, ?_, ?_, ?_, ?_, ?_, ?_⟩
  · intro hig hn hget hm
    rw [record_singleton_added,
      recordMtimeStep_sets fs roots tz Kind.A led p wc info hig hn hget hm]
    exact ledgerEntry_ledgerRecord led wc p Kind.A
  · intro hig hn hget hm
    rw [record_singleton_modified,
      recordMtimeStep_sets fs roots tz Kind.M led p wc info hig hn hget hm]
    exact ledgerEntry_ledgerRecord led wc p Kind.M
  · intro hget hm
    constructor
    · rw [record_singleton_added]
      exact recordMtimeStep_skip_before fs roots tz Kind.A led p info hget hm
    · rw [record_singleton_modified]
      exact recordMtimeStep_skip_before fs roots tz Kind.M led p info hget hm
  · intro hn
    rw [record_singleton_added]
    exact recordMtimeStep_skip_none fs roots tz Kind.A led p hn
  · intro hig
    refine ⟨?_, ?_, ?_⟩
    · rw [record_singleton_added]
      exact recordMtimeStep_skip_ignored fs roots tz Kind.A led p hig
    · rw [record_singleton_removed]
      exact recordRemovedStep_skip_ignored roots tz now led p hig
    · rw [record_singleton_modified]
      exact recordMtimeStep_skip_ignored fs roots tz Kind.M led p hig
  · intro hig hn hnow
    rw [record_singleton_removed,
      recordRemovedStep_sets roots tz now led p wc hig hn hnow]
    exact ledgerEntry_ledgerRecord led wc p Kind.D
  · intro hnow
    rw [record_singleton_removed]
    exact recordRemovedStep_skip_before roots tz now led p hnow

/-- Counterexample to claim C4 as stated: the path `r/x.tmp` resolves to an
owning working copy and its detection mtime equals start-of-day, yet the
recorder leaves the ledger unchanged, because the transient-suffix ignore
filter — which the claim's "exactly when" omits — skips the path. -/
theorem claim_C4_counterexample :
    nearest_wc_root [["r"]] ["r", "x.tmp"] = some ["r"] ∧
    dictGet [(["r", "x.tmp"], (⟨0, 5⟩ : FileInfo))] ["r", "x.tmp"] =
      some ⟨0, 5⟩ ∧
    ((0 : Int) ≤ (0 : Int)) ∧
    record_today_changes [(["r", "x.tmp"], ⟨0, 5⟩)] [["r"]] 0 0 []
      [["r", "x.tmp"]] [] [] = [] ∧
    ledgerEntry (record_today_changes [(["r", "x.tmp"], ⟨0, 5⟩)] [["r"]] 0 0
      [] [["r", "x.tmp"]] [] []) ["r"] ["r", "x.tmp"] = none := by
  exact ⟨by decide, by decide, le_refl 0, by decide, by decide⟩

/-- Witness for the amended claim C4: an entry at the inclusive boundary is
recorded, an entry one unit before start-of-day is not, and a deletion
detected after start-of-day is recorded as Deleted. -/
theorem claim_C4_witness :
    ledgerEntry (record_today_changes [(["w", "a"], ⟨0, 1⟩)] [["w"]] 0 0 []
      [["w", "a"]] [] []) ["w"] ["w", "a"] = some Kind.A ∧
    record_today_changes [(["w", "a"], ⟨-1, 1⟩)] [["w"]] 0 0 []
      [["w", "a"]] [] [] = [] ∧
    ledgerEntry (record_today_changes [] [["w"]] 0 5 [] [] [["w", "a"]] [])
      ["w"] ["w", "a"] = some Kind.D := by
  refine ⟨?_, ?_, ?_⟩
  · exact (claim_C4_record_today_cutoff [(["w", "a"], ⟨0, 1⟩)] [["w"]] 0 0 []
      ["w", "a"] ["w"] ⟨0, 1⟩).1 (by decide) (by decide) (by decide)
      (by decide)
  · exact ((claim_C4_record_today_cutoff [(["w", "a"], ⟨-1, 1⟩)] [["w"]] 0 0
      [] ["w", "a"] ["w"] ⟨-1, 1⟩).2.2.1 (by decide) (by decide)).1
  · exact (claim_C4_record_today_cutoff [] [["w"]] 0 5 [] ["w", "a"] ["w"]
      ⟨0, 1⟩).2.2.2.2.2.1 (by decide) (by decide) (by decide)

/-- Claim C10: `run_cmd` always returns an (exit code, stdout, stderr)
triple: a completed process gives its own code and stripped streams, a
missing executable maps to exit 127 and any other spawn/timeout/execution
exception to exit 128, in both cases with empty stdout and the exception
text as stderr — always an ordinary non-zero result, never a raised
exception. -/
theorem claim_C10_run_cmd_total (c : Int) (out err msg : String) :
    runCmd (SpawnResult.ok c out err) = (c, out.trim, err.trim) ∧
    runCmd (SpawnResult.notFound msg) = (127, "", msg) ∧
    runCmd (SpawnResult.failed msg) = (128, "", msg) ∧
    (runCmd (SpawnResult.notFound msg)).1 ≠ 0 ∧
    (runCmd (SpawnResult.failed msg)).1 ≠ 0 := by
  refine ⟨rfl, rfl, rfl, ?_, ?_⟩
  · show (127 : Int) ≠ 0
    norm_num
  · show (128 : Int) ≠ 0
    norm_num

end SvnAuto
